import Mathlib

/-!
# Verification of the drone-data camera-position calculator

Shallow embedding of `CameraPosCalculator.py` over exact rationals (`ℚ`):
the trajectory (RINEX) parser with its day-boundary rollover unwrap, the
capture-log (timestamp) parser, the coordinate interpolator, the image-id
extractor, and the correlator's capture-log lookup, together with theorems
settling the specification's claims about them.

Python floats are modelled as rationals, a raised exception as `none` (or the
empty result the surrounding `except` clause returns), and a cell of the input
table as the `Option ℚ` outcome of its numeric conversion.
-/

namespace DroneData

/-- A processed RINEX trajectory row
`[total_seconds, hours_decimal, east, north, elevation]` whose coordinate
cells are numeric — the well-typed rows `interpolate_coordinates`
(lines 152–193 of `CameraPosCalculator.py`) consumes. `RinexProcRow` below
is the row exactly as the parser builds it, with raw pandas cells. -/
structure RinexSample where
  secs : ℚ
  hours : ℚ
  east : ℚ
  north : ℚ
  elev : ℚ
deriving DecidableEq, Repr

/-- The day-boundary scan of `process_rinex_data` (lines 88–94) after the
first element, `prev` being the previously scanned hours value: at the first
element `x` with `x - prev ≤ 0`, add `24.0` to it and to every later element,
then stop scanning. -/
def unwrapFromLE (prev : ℚ) : List ℚ → List ℚ
  | [] => []
  | x :: xs =>
    if x - prev ≤ 0 then (x + 24) :: xs.map (· + 24)
    else x :: unwrapFromLE x xs

/-- The day-boundary correction applied to the trajectory `hours` sequence
(`process_rinex_data`, lines 88–94; trigger `current_time - past_time <= 0`). -/
def rinex_unwrap : List ℚ → List ℚ
  | [] => []
  | x :: xs => x :: unwrapFromLE x xs

/-- The day-boundary scan of `process_timestamp_data` (lines 140–144) after
the first element: same as `unwrapFromLE` but with the strict trigger
`image_times[t] - image_times[t-1] < 0`. -/
def unwrapFromLT (prev : ℚ) : List ℚ → List ℚ
  | [] => []
  | x :: xs =>
    if x - prev < 0 then (x + 24) :: xs.map (· + 24)
    else x :: unwrapFromLT x xs

/-- The day-boundary correction applied to the capture-log `image_times`
sequence (`process_timestamp_data`, lines 140–144). -/
def timestamp_unwrap : List ℚ → List ℚ
  | [] => []
  | x :: xs => x :: unwrapFromLT x xs

/-- A raw pandas cell of a coordinate column: `read_csv` leaves a numeric
cell as a float, falls back to the string itself when the column holds a
non-numeric value (object dtype), and pads a short row with NaN — none of
these raises, so the cell is carried through the parser unchanged. -/
inductive PdCell where
  | num (q : ℚ)
  | text (s : List Char)
  | nan
deriving DecidableEq, Repr

/-- One processed trajectory row exactly as `process_rinex_data` builds it
(lines 79–85): seconds and hours are numeric (the time field went through
`float`), while the coordinate entries are the raw cells of columns
24 / 25 / 33, appended without any conversion. -/
structure RinexProcRow where
  secs : ℚ
  hours : ℚ
  east : PdCell
  north : PdCell
  elev : PdCell
deriving DecidableEq, Repr

/-- `rinex_processed[i][1] += 24.0` on one row. -/
def bumpDay (s : RinexProcRow) : RinexProcRow := { s with hours := s.hours + 24 }

/-- Sample-level version of the `process_rinex_data` day-boundary scan. -/
def unwrapSamplesFrom (prev : RinexProcRow) :
    List RinexProcRow → List RinexProcRow
  | [] => []
  | x :: xs =>
    if x.hours - prev.hours ≤ 0 then bumpDay x :: xs.map bumpDay
    else x :: unwrapSamplesFrom x xs

/-- Sample-level day-boundary correction of `process_rinex_data`
(lines 88–94). -/
def rinex_unwrap_samples : List RinexProcRow → List RinexProcRow
  | [] => []
  | x :: xs => x :: unwrapSamplesFrom x xs

/-- A raw RINEX data row as the row loop consumes it: the `HH:MM:SS` time
field already split on `:`, each part holding its `float(...)` outcome
(`none` = not a number), and the raw pandas cells of the east / north /
elevation columns. -/
structure RinexRow where
  hms : List (Option ℚ)
  east : PdCell
  north : PdCell
  elev : PdCell

/-- One iteration of the row loop of `process_rinex_data` (lines 71–85): the
only failure path is the time field — `split(':')` / `map(float, ...)` / the
three-way unpack raise on a non-numeric part or a wrong arity; the
coordinate cells are appended as-is (lines 82–84) and never raise. -/
def parseRinexRow (r : RinexRow) : Option RinexProcRow :=
  match r.hms with
  | [some h, some m, some s] =>
    some ⟨h * 3600 + m * 60 + s, (h * 3600 + m * 60 + s) / 3600,
      r.east, r.north, r.elev⟩
  | _ => none

/-- The row loop shared by both parsers: rows are parsed in order and results
appended; the first raised error (`none`) aborts the whole loop. -/
def parseRows {α β : Type} (f : α → Option β) : List α → Option (List β)
  | [] => some []
  | r :: rs =>
    match f r, parseRows f rs with
    | some v, some vs => some (v :: vs)
    | _, _ => none

/-- `process_rinex_data` (lines 66–99): build every row, then apply the
day-boundary unwrap; any raised error is caught by the surrounding `except`
and the empty list returned. -/
def process_rinex_data (rows : List RinexRow) : List RinexProcRow :=
  match parseRows parseRinexRow rows with
  | none => []
  | some samples => rinex_unwrap_samples samples

/-- Python `int(...)` on a number: truncation toward zero. -/
def pyInt (q : ℚ) : ℤ := if 0 ≤ q then ⌊q⌋ else ⌈q⌉

/-- The `image_time` formula of `process_timestamp_data` (line 125):
`(seconds / 3600.0) - int(seconds / 3600.0 / 24.0) * 24.0`. -/
def image_time (seconds : ℚ) : ℚ :=
  seconds / 3600 - pyInt (seconds / 3600 / 24) * 24

/-- A raw capture-log (`.MRK`) row: column 0 image id, column 1 seconds of
day, and the first comma-token of columns 4 / 3 / 5 (east / north / elevation
offset, mm); each numeric cell holds its conversion outcome (`none` = missing
or non-numeric). -/
structure CaptureRow where
  image_id : ℤ
  seconds : Option ℚ
  eastTok : Option ℚ
  northTok : Option ℚ
  elevTok : Option ℚ

/-- One iteration of the row loop of `process_timestamp_data`
(lines 120–137): id, capture hours via `image_time`, and the offset triple
`[east, north, elev]`; any failure raises, modelled as `none`. -/
def parseCaptureRow (r : CaptureRow) : Option (ℤ × ℚ × (ℚ × ℚ × ℚ)) :=
  match r.seconds, r.eastTok, r.northTok, r.elevTok with
  | some s, some e, some n, some el => some (r.image_id, image_time s, (e, n, el))
  | _, _, _, _ => none

/-- `process_timestamp_data` (lines 102–149): parse every row into the
parallel `(image_times, image_ids, offsets)` sequences and unwrap the times;
any raised error is caught and the empty triple returned. -/
def process_timestamp_data (rows : List CaptureRow) :
    List ℚ × List ℤ × List (ℚ × ℚ × ℚ) :=
  match parseRows parseCaptureRow rows with
  | none => ([], [], [])
  | some entries =>
    (timestamp_unwrap (entries.map (fun e => e.2.1)),
     entries.map (fun e => e.1),
     entries.map (fun e => e.2.2))

/-- The pair scan of `interpolate_coordinates` (lines 166–191), `prev` being
the sample at index `i - 1`: strict-interior linear blend first, else exact
lower-boundary match, else advance to the next pair; falling off the end
models the raised `ValueError` (line 193). -/
def interpScan (hour eo no el : ℚ) :
    RinexSample → List RinexSample → Option (ℚ × ℚ × ℚ)
  | _, [] => none
  | prev, cur :: rest =>
    if prev.hours < hour ∧ hour < cur.hours then
      some (prev.east + (cur.east - prev.east) * ((hour - prev.hours) / (cur.hours - prev.hours)) + eo / 1000,
            prev.north + (cur.north - prev.north) * ((hour - prev.hours) / (cur.hours - prev.hours)) + no / 1000,
            prev.elev + (cur.elev - prev.elev) * ((hour - prev.hours) / (cur.hours - prev.hours)) - el / 1000)
    else if prev.hours = hour then
      some (prev.east + eo / 1000, prev.north + no / 1000, prev.elev - el / 1000)
    else interpScan hour eo no el cur rest

/-- `interpolate_coordinates` (lines 152–193): scan the consecutive pairs of
the trajectory; `none` models the raised `ValueError` (the spec's
`RangeError`). -/
def interpolate_coordinates (hour : ℚ) (rinex : List RinexSample)
    (off : ℚ × ℚ × ℚ) : Option (ℚ × ℚ × ℚ) :=
  match rinex with
  | [] => none
  | first :: rest => interpScan hour off.1 off.2.1 off.2.2 first rest

/-- Decimal digit value of a character, `none` for a non-digit. -/
def digitVal (c : Char) : Option ℕ :=
  if c.isDigit then some (c.toNat - 48) else none

/-- Value of a nonempty all-digit character run, `none` otherwise (checked
left to right as Python's `int` does). -/
def digitsToNat (cs : List Char) : Option ℕ :=
  cs.foldl
    (fun acc c =>
      match acc, digitVal c with
      | some a, some d => some (a * 10 + d)
      | _, _ => none)
    (some 0)

/-- Python `str.split(sep)` with a one-character separator, on the character
list of the string: `"".split(sep) = [""]`, and empty fields are kept. -/
def pySplit (sep : Char) : List Char → List (List Char)
  | [] => [[]]
  | c :: rest =>
    if c = sep then [] :: pySplit sep rest
    else
      match pySplit sep rest with
      | [] => [[c]]
      | t :: ts => (c :: t) :: ts

/-- Strip leading and trailing whitespace, as Python `int(str)` allows. -/
def stripWS (cs : List Char) : List Char :=
  ((cs.dropWhile Char.isWhitespace).reverse.dropWhile Char.isWhitespace).reverse

/-- Python `int(str)`: strip surrounding whitespace, an optional sign, then a
nonempty run of decimal digits; anything else raises `ValueError`, modelled
as `none`. -/
def python_int (s : List Char) : Option ℤ :=
  match stripWS s with
  | [] => none
  | '+' :: cs => if cs = [] then none else (digitsToNat cs).map (fun n => (n : ℤ))
  | '-' :: cs => if cs = [] then none else (digitsToNat cs).map (fun n => -(n : ℤ))
  | cs => (digitsToNat cs).map (fun n => (n : ℤ))

/-- `extract_image_id_from_filename` (lines 34–53), on the character list of
the filename: split on `_`, require at least 3 tokens, take token 2's portion
before the first `.`, parse it as an integer; any failure (too few tokens,
`ValueError`) yields `none`. -/
def extract_image_id_from_filename (filename : List Char) : Option ℤ :=
  let parts := pySplit '_' filename
  if 3 ≤ parts.length then
    python_int ((pySplit '.' (parts.getD 2 [])).headD [])
  else none

/-- Python `list.index(x)`: the first index holding `x`, a raised
`ValueError` (no occurrence) modelled as `none`. -/
def py_index (x : ℤ) : List ℤ → Option ℕ
  | [] => none
  | y :: ys => if y = x then some 0 else (py_index x ys).map (· + 1)

/-- The capture-log lookup of `camera_position_calculator` (lines 337–341):
`image_ids.index(image_id)` takes the first occurrence, then the hour and
offset at that index are fetched; a `ValueError`/`IndexError` marks the image
unmatched, modelled as `none`. -/
def lookup_capture (ids : List ℤ) (times : List ℚ) (offs : List (ℚ × ℚ × ℚ))
    (imgId : ℤ) : Option (ℚ × (ℚ × ℚ × ℚ)) :=
  match py_index imgId ids with
  | none => none
  | some k =>
    match times.get? k, offs.get? k with
    | some t, some o => some (t, o)
    | _, _ => none

/-- Number of adjacent non-increasing pairs (`hours[t] ≤ hours[t-1]`) of a
sequence — the trigger count of the trajectory unwrap. -/
def nonIncCount : List ℚ → ℕ
  | x :: y :: rest => (if y ≤ x then 1 else 0) + nonIncCount (y :: rest)
  | _ => 0

/-- The linear blend of the coordinates of samples `a` and `b` at `hour`, as
the interior case of the scan computes it (spec §4.4, strict interior case). -/
def blendPoint (hour : ℚ) (a b : RinexSample) : ℚ × ℚ × ℚ :=
  (a.east + (b.east - a.east) * ((hour - a.hours) / (b.hours - a.hours)),
   a.north + (b.north - a.north) * ((hour - a.hours) / (b.hours - a.hours)),
   a.elev + (b.elev - a.elev) * ((hour - a.hours) / (b.hours - a.hours)))

/-- The offset correction of spec §4.4: east and north offsets added,
elevation offset subtracted, each divided by 1000. -/
def addOffset (eo no el : ℚ) (p : ℚ × ℚ × ℚ) : ℚ × ℚ × ℚ :=
  (p.1 + eo / 1000, p.2.1 + no / 1000, p.2.2 - el / 1000)

theorem unwrapFromLT_eq_unwrapFromLE (xs : List ℚ) :
    ∀ prev : ℚ, (prev :: xs).Chain' (· ≠ ·) →
      unwrapFromLT prev xs = unwrapFromLE prev xs := by
  induction xs with
  | nil => intro prev _; rfl
  | cons x rest ih =>
    intro prev h
    rw [List.chain'_cons] at h
    have hne : x - prev ≠ 0 := sub_ne_zero.mpr (Ne.symm h.1)
    by_cases hlt : x - prev < 0
    · rw [unwrapFromLT, unwrapFromLE, if_pos hlt, if_pos (le_of_lt hlt)]
    · have hgt : ¬ x - prev ≤ 0 := fun hle => hlt (lt_of_le_of_ne hle hne)
      rw [unwrapFromLT, unwrapFromLE, if_neg hlt, if_neg hgt, ih x h.2]

/-- C3 counterexample: on the hours sequence `[1, 1]` the trajectory unwrap
(trigger `hours[t] - hours[t-1] ≤ 0`) adds 24 while the capture-log unwrap
(trigger `hours[t] - hours[t-1] < 0`) does not, so the two corrections
differ. -/
theorem timestamp_unwrap_ne_rinex_unwrap :
    timestamp_unwrap [1, 1] = [1, 1] ∧ rinex_unwrap [1, 1] = [1, 25] ∧
      timestamp_unwrap [1, 1] ≠ rinex_unwrap [1, 1] := by
  refine ⟨?_, ?_, ?_⟩ <;>
    norm_num [timestamp_unwrap, unwrapFromLT, rinex_unwrap, unwrapFromLE]

/-- C3 (amended): both parsers run a single-pass rollover unwrap that adds
`24.0` to the suffix at the first trigger and stops, but the capture-log
trigger is strict (`hours[t] < hours[t-1]`, line 141) while the trajectory
trigger is non-strict (`hours[t] ≤ hours[t-1]`, line 91); the two corrections
coincide on every hours sequence in which no two adjacent values are equal. -/
theorem timestamp_unwrap_eq_rinex_unwrap (l : List ℚ)
    (h : l.Chain' (· ≠ ·)) : timestamp_unwrap l = rinex_unwrap l := by
  cases l with
  | nil => rfl
  | cons x xs =>
    rw [timestamp_unwrap, rinex_unwrap, unwrapFromLT_eq_unwrapFromLE xs x h]

/-- Witness for the amended C3 theorem at the sequence `[1, 2, 0, 5]`. -/
theorem timestamp_unwrap_eq_rinex_unwrap_witness :
    List.Chain' (· ≠ ·) [(1 : ℚ), 2, 0, 5] ∧
      timestamp_unwrap [(1 : ℚ), 2, 0, 5] = rinex_unwrap [(1 : ℚ), 2, 0, 5] :=
  ⟨by norm_num [List.chain'_cons],
   timestamp_unwrap_eq_rinex_unwrap _ (by norm_num [List.chain'_cons])⟩

theorem chain_lt_of_nonIncCount_zero (l : List ℚ) :
    nonIncCount l = 0 → l.Chain' (· < ·) := by
  induction l with
  | nil => intro _; exact List.chain'_nil
  | cons x xs ih =>
    cases xs with
    | nil => intro _; exact List.chain'_singleton x
    | cons y rest =>
      intro h
      rw [nonIncCount] at h
      by_cases hy : y ≤ x
      · rw [if_pos hy] at h; omega
      · rw [if_neg hy, Nat.zero_add] at h
        exact List.chain'_cons.mpr ⟨lt_of_not_le hy, ih h⟩

/-- C4 counterexample: the input hours sequence `[3, 2, 1]` has two adjacent
decreases; the trajectory unwrap corrects only the first, producing
`[3, 26, 25]`, which is not adjacent-non-decreasing. -/
theorem rinex_unwrap_not_monotone :
    rinex_unwrap [3, 2, 1] = [3, 26, 25] ∧
      ¬ (rinex_unwrap [3, 2, 1]).Chain' (· ≤ ·) := by
  have h : rinex_unwrap [3, 2, 1] = [3, 26, 25] := by
    norm_num [rinex_unwrap, unwrapFromLE]
  refine ⟨h, ?_⟩
  rw [h]
  norm_num [List.chain'_cons]

theorem unwrapFromLE_chain (xs : List ℚ) :
    ∀ prev : ℚ, (∀ x ∈ prev :: xs, 0 ≤ x ∧ x < 24) →
      nonIncCount (prev :: xs) ≤ 1 →
      (prev :: unwrapFromLE prev xs).Chain' (· ≤ ·) := by
  induction xs with
  | nil => intro prev _ _; exact List.chain'_singleton prev
  | cons y ys ih =>
    intro prev hb h1
    by_cases htrig : y - prev ≤ 0
    · rw [unwrapFromLE, if_pos htrig]
      have hy : y ≤ prev := by linarith
      rw [nonIncCount, if_pos hy] at h1
      have h0 : nonIncCount (y :: ys) = 0 := by omega
      have hlt : (y :: ys).Chain' (· < ·) := chain_lt_of_nonIncCount_zero _ h0
      have hmap : ((y :: ys).map (· + 24)).Chain' (· ≤ ·) :=
        (List.chain'_map _).mpr (hlt.imp fun a b hab => by linarith)
      rw [List.map_cons] at hmap
      refine List.chain'_cons.mpr ⟨?_, hmap⟩
      have hprev : prev < 24 := (hb prev (by simp)).2
      have hy0 : 0 ≤ y := (hb y (by simp)).1
      linarith
    · rw [unwrapFromLE, if_neg htrig]
      have hy : ¬ y ≤ prev := fun h => htrig (by linarith)
      refine List.chain'_cons.mpr ⟨le_of_not_le hy, ?_⟩
      apply ih y
      · intro x hx
        exact hb x (List.mem_cons_of_mem prev hx)
      · rw [nonIncCount, if_neg hy] at h1
        omega

/-- C4 (amended): for input hour sequences whose values lie in `[0, 24)` and
that contain at most one adjacent non-increase (the spec's single-rollover
assumption), the unwrapped sequence is adjacent-non-decreasing; for arbitrary
inputs this fails (see the counterexample), since the single-pass correction
fixes only the first non-increase. -/
theorem rinex_unwrap_monotone (l : List ℚ)
    (hb : ∀ x ∈ l, 0 ≤ x ∧ x < 24) (h1 : nonIncCount l ≤ 1) :
    (rinex_unwrap l).Chain' (· ≤ ·) := by
  cases l with
  | nil => exact List.chain'_nil
  | cons x xs =>
    rw [rinex_unwrap]
    exact unwrapFromLE_chain xs x hb h1

/-- Witness for the amended C4 theorem at the rollover sequence
`[23, 1, 2]`. -/
theorem rinex_unwrap_monotone_witness :
    (∀ x ∈ [(23 : ℚ), 1, 2], 0 ≤ x ∧ x < 24) ∧
      nonIncCount [(23 : ℚ), 1, 2] ≤ 1 ∧
      (rinex_unwrap [(23 : ℚ), 1, 2]).Chain' (· ≤ ·) :=
  ⟨by norm_num, by norm_num [nonIncCount],
   rinex_unwrap_monotone _ (by norm_num) (by norm_num [nonIncCount])⟩

theorem interpScan_offset (hour eo no el : ℚ) (rest : List RinexSample) :
    ∀ prev, interpScan hour eo no el prev rest =
      (interpScan hour 0 0 0 prev rest).map (addOffset eo no el) := by
  induction rest with
  | nil => intro prev; rfl
  | cons cur rs ih =>
    intro prev
    simp only [interpScan]
    split_ifs with h1 h2
    · simp only [Option.map_some', addOffset]
      norm_num
    · simp only [Option.map_some', addOffset]
      norm_num
    · exact ih cur

/-- C6: in every successful interpolation — interior or exact-boundary — the
offset is applied as `east + east_mm/1000`, `north + north_mm/1000`,
`elevation - elev_mm/1000`; in particular an exact-match sample at `(0,0,0)`
with offset `(1000, 2000, 3000)` yields `(1, 2, -3)`. -/
theorem interpolate_offset_application :
    (∀ (hour eo no el : ℚ) (traj : List RinexSample),
        interpolate_coordinates hour traj (eo, no, el) =
          (interpolate_coordinates hour traj (0, 0, 0)).map (addOffset eo no el)) ∧
      interpolate_coordinates 5 [⟨0, 5, 0, 0, 0⟩, ⟨0, 6, 1, 1, 1⟩]
          (1000, 2000, 3000) = some (1, 2, -3) := by
  constructor
  · intro hour eo no el traj
    cases traj with
    | nil => rfl
    | cons first rest => exact interpScan_offset hour eo no el rest first
  · norm_num [interpolate_coordinates, interpScan]

/-- C7: for a non-negative seconds-of-day value, the capture hours computed
by `process_timestamp_data` equal `s/3600 - ⌊s/3600/24⌋ * 24` (Python's
`int` truncation coincides with the floor there) and lie in `[0, 24)`. -/
theorem image_time_normalized (s : ℚ) (hs : 0 ≤ s) :
    image_time s = s / 3600 - ⌊s / 3600 / 24⌋ * 24 ∧
      0 ≤ image_time s ∧ image_time s < 24 := by
  have h0 : (0 : ℚ) ≤ s / 3600 / 24 := by positivity
  have hp : ((pyInt (s / 3600 / 24) : ℤ) : ℚ) = ((⌊s / 3600 / 24⌋ : ℤ) : ℚ) := by
    rw [pyInt, if_pos h0]
  have heq : image_time s = s / 3600 - ⌊s / 3600 / 24⌋ * 24 := by
    rw [image_time, hp]
  have hfl : ((⌊s / 3600 / 24⌋ : ℤ) : ℚ) ≤ s / 3600 / 24 := Int.floor_le _
  have hfu : s / 3600 / 24 < ⌊s / 3600 / 24⌋ + 1 := Int.lt_floor_add_one _
  refine ⟨heq, ?_, ?_⟩
  · rw [heq]
    have hm := mul_le_mul_of_nonneg_right hfl (by norm_num : (0 : ℚ) ≤ 24)
    rw [div_mul_cancel₀ _ (by norm_num : (24 : ℚ) ≠ 0)] at hm
    linarith
  · rw [heq]
    have hm := mul_lt_mul_of_pos_right hfu (by norm_num : (0 : ℚ) < 24)
    rw [div_mul_cancel₀ _ (by norm_num : (24 : ℚ) ≠ 0)] at hm
    have hex : ((⌊s / 3600 / 24⌋ : ℚ) + 1) * 24 = (⌊s / 3600 / 24⌋ : ℚ) * 24 + 24 := by
      ring
    linarith

/-- Witness for the C7 theorem at `seconds = 90000` (25 raw hours, which
normalize to 1). -/
theorem image_time_normalized_witness :
    (0 : ℚ) ≤ 90000 ∧
      (image_time 90000 = 90000 / 3600 - ⌊(90000 : ℚ) / 3600 / 24⌋ * 24 ∧
        0 ≤ image_time 90000 ∧ image_time 90000 < 24) :=
  ⟨by norm_num, image_time_normalized 90000 (by norm_num)⟩

/-- C10: `extract_image_id_from_filename` is total — it returns `none` or an
integer, never failing — and returns an integer exactly when the filename
splits on `_` into at least 3 tokens and the portion of token 2 before the
first `.` parses as an integer; `"DJI_0001_0042.JPG"` gives `42` and
`"badname.jpg"` gives `none`. -/
theorem extract_image_id_total :
    (∀ filename : List Char,
        extract_image_id_from_filename filename = none ∨
          ∃ k : ℤ, extract_image_id_from_filename filename = some k) ∧
      (∀ filename : List Char,
        (extract_image_id_from_filename filename).isSome ↔
          3 ≤ (pySplit '_' filename).length ∧
            (python_int
              ((pySplit '.' ((pySplit '_' filename).getD 2 [])).headD [])).isSome) ∧
      extract_image_id_from_filename "DJI_0001_0042.JPG".data = some 42 ∧
      extract_image_id_from_filename "badname.jpg".data = none := by
  refine ⟨?_, ?_, by rfl, by rfl⟩
  · intro filename
    cases h : extract_image_id_from_filename filename with
    | none => exact Or.inl rfl
    | some k => exact Or.inr ⟨k, rfl⟩
  · intro filename
    simp only [extract_image_id_from_filename]
    split_ifs with h
    · simp [h]
    · simp [h]

theorem pairwise_hours_rel {R : ℚ → ℚ → Prop} (l : List RinexSample) :
    ∀ {i j : ℕ} {a b : RinexSample}, (l.map RinexSample.hours).Pairwise R →
      i < j → l.get? i = some a → l.get? j = some b → R a.hours b.hours := by
  induction l with
  | nil => intro i j a b _ _ ha _; simp at ha
  | cons x xs ih =>
    intro i j a b hp hij ha hb
    rw [List.map_cons, List.pairwise_cons] at hp
    cases i with
    | zero =>
      cases j with
      | zero => omega
      | succ k =>
        have hxa : x = a := by simpa using ha
        have hbm : b ∈ xs := List.get?_mem (by simpa using hb)
        rw [← hxa]
        exact hp.1 b.hours (List.mem_map_of_mem _ hbm)
    | succ m =>
      cases j with
      | zero => omega
      | succ k =>
        exact ih hp.2 (Nat.lt_of_succ_lt_succ hij) (by simpa using ha)
          (by simpa using hb)

theorem interpScan_interior_eq (hour eo no el : ℚ) (rest : List RinexSample) :
    ∀ (prev : RinexSample) (i : ℕ) (a b : RinexSample),
      ((prev :: rest).map RinexSample.hours).Pairwise (· ≤ ·) →
      (prev :: rest).get? i = some a → (prev :: rest).get? (i + 1) = some b →
      a.hours < hour → hour < b.hours →
      interpScan hour eo no el prev rest =
        some (addOffset eo no el (blendPoint hour a b)) := by
  induction rest with
  | nil =>
    intro prev i a b _ _ hb _ _
    rcases i with _ | m <;> simp at hb
  | cons cur rs ih =>
    intro prev i a b hp ha hb h1 h2
    cases i with
    | zero =>
      have hpa : prev = a := by simpa using ha
      have hcb : cur = b := by simpa using hb
      subst hpa
      subst hcb
      rw [interpScan, if_pos ⟨h1, h2⟩]
      rfl
    | succ m =>
      have ha' : (cur :: rs).get? m = some a := by simpa using ha
      have hb' : (cur :: rs).get? (m + 1) = some b := by simpa using hb
      have hpt : ((cur :: rs).map RinexSample.hours).Pairwise (· ≤ ·) := by
        rw [List.map_cons, List.pairwise_cons] at hp
        exact hp.2
      have hca : cur.hours ≤ a.hours := by
        cases m with
        | zero =>
          have : cur = a := by simpa using ha'
          rw [this]
        | succ m' => exact pairwise_hours_rel _ hpt (Nat.succ_pos m') rfl ha'
      have hnint : ¬ (prev.hours < hour ∧ hour < cur.hours) := by
        rintro ⟨_, hcontra⟩
        linarith
      have hpc : prev.hours ≤ cur.hours := by
        rw [List.map_cons, List.pairwise_cons] at hp
        exact hp.1 cur.hours (by simp)
      have hne : prev.hours ≠ hour := by
        intro he
        linarith
      rw [interpScan, if_neg hnint, if_neg hne]
      exact ih cur m a b hpt ha' hb' h1 h2

/-- C1: on a trajectory whose unwrapped hours are adjacent-non-decreasing (the
spec's invariant), whenever a consecutive pair brackets the query strictly,
`interpolate_coordinates` returns each coordinate linearly blended as
`a.coord + (b.coord - a.coord) * (hour - a.hours) / (b.hours - a.hours)` for
that pair — under the sortedness invariant that bracketing pair is unique,
hence the first one scanned — and then applies the offset correction. -/
theorem interpolate_interior (traj : List RinexSample) (off : ℚ × ℚ × ℚ)
    (hour : ℚ) (i : ℕ) (a b : RinexSample)
    (hsort : (traj.map RinexSample.hours).Chain' (· ≤ ·))
    (ha : traj.get? i = some a) (hb : traj.get? (i + 1) = some b)
    (h1 : a.hours < hour) (h2 : hour < b.hours) :
    interpolate_coordinates hour traj off =
      some (addOffset off.1 off.2.1 off.2.2 (blendPoint hour a b)) := by
  have hp : (traj.map RinexSample.hours).Pairwise (· ≤ ·) :=
    List.chain'_iff_pairwise.mp hsort
  cases traj with
  | nil => simp at ha
  | cons first rest =>
    exact interpScan_interior_eq hour off.1 off.2.1 off.2.2 rest first i a b hp ha hb h1 h2

/-- Witness for the C1 theorem: the spec's midpoint example — trajectory
`[(t0, 0, 0, 0), (t1, 10, 20, 30)]` with `t0 = 0`, `t1 = 2`, zero offset,
query at the midpoint `1`, giving `(5, 10, 15)`. -/
theorem interpolate_interior_witness :
    interpolate_coordinates 1 [⟨0, 0, 0, 0, 0⟩, ⟨0, 2, 10, 20, 30⟩] (0, 0, 0) =
      some (5, 10, 15) := by
  have h := interpolate_interior [⟨0, 0, 0, 0, 0⟩, ⟨0, 2, 10, 20, 30⟩] (0, 0, 0) 1 0
    ⟨0, 0, 0, 0, 0⟩ ⟨0, 2, 10, 20, 30⟩ (by norm_num [List.chain'_cons]) rfl rfl
    (by norm_num) (by norm_num)
  rw [h]
  norm_num [addOffset, blendPoint]

theorem interpScan_boundary_eq (hour eo no el : ℚ) (rest : List RinexSample) :
    ∀ (prev : RinexSample) (i : ℕ) (a b : RinexSample),
      (prev :: rest).get? i = some a → (prev :: rest).get? (i + 1) = some b →
      a.hours = hour →
      (∀ j, j < i → ∀ c d, (prev :: rest).get? j = some c →
        (prev :: rest).get? (j + 1) = some d →
        ¬(c.hours < hour ∧ hour < d.hours) ∧ c.hours ≠ hour) →
      interpScan hour eo no el prev rest =
        some (addOffset eo no el (a.east, a.north, a.elev)) := by
  induction rest with
  | nil =>
    intro prev i a b _ hb _ _
    rcases i with _ | m <;> simp at hb
  | cons cur rs ih =>
    intro prev i a b ha hb heq hfirst
    cases i with
    | zero =>
      have hpa : prev = a := by simpa using ha
      subst hpa
      have hnint : ¬ (prev.hours < hour ∧ hour < cur.hours) := by
        rintro ⟨hl, _⟩
        rw [heq] at hl
        exact lt_irrefl hour hl
      rw [interpScan, if_neg hnint, if_pos heq]
      rfl
    | succ m =>
      have h0 := hfirst 0 (Nat.succ_pos m) prev cur rfl rfl
      rw [interpScan, if_neg h0.1, if_neg h0.2]
      refine ih cur m a b (by simpa using ha) (by simpa using hb) heq ?_
      intro j hj c d hc hd
      exact hfirst (j + 1) (by omega) c d (by simpa using hc) (by simpa using hd)

/-- C5: when the query equals the left endpoint `a.hours` of the pair at
index `i` and no pair scanned earlier matches (neither strictly-interior nor
boundary), `interpolate_coordinates` returns sample `a`'s east / north /
elevation unblended, plus the offset correction. -/
theorem interpolate_boundary (traj : List RinexSample) (off : ℚ × ℚ × ℚ)
    (hour : ℚ) (i : ℕ) (a b : RinexSample)
    (ha : traj.get? i = some a) (hb : traj.get? (i + 1) = some b)
    (heq : a.hours = hour)
    (hfirst : ∀ j, j < i → ∀ c d, traj.get? j = some c →
      traj.get? (j + 1) = some d →
      ¬(c.hours < hour ∧ hour < d.hours) ∧ c.hours ≠ hour) :
    interpolate_coordinates hour traj off =
      some (addOffset off.1 off.2.1 off.2.2 (a.east, a.north, a.elev)) := by
  cases traj with
  | nil => simp at ha
  | cons first rest =>
    exact interpScan_boundary_eq hour off.1 off.2.1 off.2.2 rest first i a b ha hb heq hfirst

/-- Witness for the C5 theorem: exact match on the first sample of
`[(1, 7, 8, 9), (2, 0, 0, 0)]` at query 1 with zero offset returns
`(7, 8, 9)` unblended. -/
theorem interpolate_boundary_witness :
    interpolate_coordinates 1 [⟨0, 1, 7, 8, 9⟩, ⟨0, 2, 0, 0, 0⟩] (0, 0, 0) =
      some (7, 8, 9) := by
  have h := interpolate_boundary [⟨0, 1, 7, 8, 9⟩, ⟨0, 2, 0, 0, 0⟩] (0, 0, 0) 1 0
    ⟨0, 1, 7, 8, 9⟩ ⟨0, 2, 0, 0, 0⟩ rfl rfl rfl (fun j hj => absurd hj (Nat.not_lt_zero j))
  rw [h]
  norm_num [addOffset]

theorem interpScan_eq_none_iff (hour eo no el : ℚ) (rest : List RinexSample) :
    ∀ prev : RinexSample,
      (interpScan hour eo no el prev rest = none ↔
        ∀ (i : ℕ) (a b : RinexSample), (prev :: rest).get? i = some a →
          (prev :: rest).get? (i + 1) = some b →
          ¬(a.hours < hour ∧ hour < b.hours) ∧ a.hours ≠ hour) := by
  induction rest with
  | nil =>
    intro prev
    constructor
    · intro _ i a b _ hb
      exfalso
      rcases i with _ | m <;> simp at hb
    · intro _
      rfl
  | cons cur rs ih =>
    intro prev
    simp only [interpScan]
    by_cases h1 : prev.hours < hour ∧ hour < cur.hours
    · rw [if_pos h1]
      constructor
      · intro hc
        exact (Option.some_ne_none _ hc).elim
      · intro hall
        exact absurd h1 (hall 0 prev cur rfl rfl).1
    · rw [if_neg h1]
      by_cases h2 : prev.hours = hour
      · rw [if_pos h2]
        constructor
        · intro hc
          exact (Option.some_ne_none _ hc).elim
        · intro hall
          exact absurd h2 (hall 0 prev cur rfl rfl).2
      · rw [if_neg h2, ih cur]
        constructor
        · intro hall i a b ha hb
          cases i with
          | zero =>
            have hpa : prev = a := by simpa using ha
            subst hpa
            have hcb : cur = b := by simpa using hb
            subst hcb
            exact ⟨h1, h2⟩
          | succ m => exact hall m a b (by simpa using ha) (by simpa using hb)
        · intro hall i a b ha hb
          exact hall (i + 1) a b (by simpa using ha) (by simpa using hb)

theorem interpolate_eq_none_iff (hour : ℚ) (traj : List RinexSample)
    (off : ℚ × ℚ × ℚ) :
    interpolate_coordinates hour traj off = none ↔
      ∀ (i : ℕ) (a b : RinexSample), traj.get? i = some a →
        traj.get? (i + 1) = some b →
        ¬(a.hours < hour ∧ hour < b.hours) ∧ a.hours ≠ hour := by
  cases traj with
  | nil =>
    constructor
    · intro _ i a b ha _
      simp at ha
    · intro _
      rfl
  | cons first rest => exact interpScan_eq_none_iff hour off.1 off.2.1 off.2.2 rest first

/-- C2: `interpolate_coordinates` fails (the raised `ValueError`, the spec's
`RangeError`) exactly when no consecutive pair of the trajectory satisfies
`time[i-1] < hour < time[i]` or `time[i-1] = hour`; in particular, on a
trajectory with adjacent-non-decreasing hours it fails for every query
strictly before the first sample's hours, and on strictly increasing hours it
fails for a query equal to the last sample's hours (the boundary check scans
only left endpoints of pairs). -/
theorem interpolate_range_error :
    (∀ (hour : ℚ) (traj : List RinexSample) (off : ℚ × ℚ × ℚ),
        interpolate_coordinates hour traj off = none ↔
          ∀ (i : ℕ) (a b : RinexSample), traj.get? i = some a →
            traj.get? (i + 1) = some b →
            ¬(a.hours < hour ∧ hour < b.hours) ∧ a.hours ≠ hour) ∧
      (∀ (hour : ℚ) (traj : List RinexSample) (off : ℚ × ℚ × ℚ)
          (first : RinexSample),
        (traj.map RinexSample.hours).Chain' (· ≤ ·) →
        traj.get? 0 = some first → hour < first.hours →
        interpolate_coordinates hour traj off = none) ∧
      ∀ (hour : ℚ) (traj : List RinexSample) (off : ℚ × ℚ × ℚ)
          (lastS : RinexSample),
        (traj.map RinexSample.hours).Chain' (· < ·) →
        traj.get? (traj.length - 1) = some lastS → hour = lastS.hours →
        interpolate_coordinates hour traj off = none := by
  refine ⟨interpolate_eq_none_iff, ?_, ?_⟩
  · intro hour traj off first hsort h0 hlt
    rw [interpolate_eq_none_iff]
    intro i a b ha _
    have hfa : first.hours ≤ a.hours := by
      cases i with
      | zero =>
        have : first = a := by rw [h0] at ha; exact Option.some.inj ha
        rw [this]
      | succ m =>
        exact pairwise_hours_rel _ (List.chain'_iff_pairwise.mp hsort)
          (Nat.succ_pos m) h0 ha
    constructor
    · rintro ⟨hl, _⟩
      linarith
    · intro he
      rw [he] at hfa
      linarith
  · intro hour traj off lastS hsort hlast heq
    rw [interpolate_eq_none_iff]
    intro i a b ha hb
    have hp := List.chain'_iff_pairwise.mp hsort
    have hlen : i + 1 < traj.length := (List.get?_eq_some.mp hb).1
    by_cases hcase : i + 1 = traj.length - 1
    · have hbl : b = lastS := by
        rw [← hcase] at hlast
        rw [hlast] at hb
        exact (Option.some.inj hb).symm
      constructor
      · rintro ⟨_, hub⟩
        rw [hbl, ← heq] at hub
        exact lt_irrefl hour hub
      · intro he
        have hab : a.hours < b.hours :=
          pairwise_hours_rel _ hp (Nat.lt_succ_self i) ha hb
        rw [he, hbl, ← heq] at hab
        exact lt_irrefl hour hab
    · have hlt2 : i + 1 < traj.length - 1 := by omega
      have hbl : b.hours < lastS.hours := pairwise_hours_rel _ hp hlt2 hb hlast
      constructor
      · rintro ⟨_, hub⟩
        rw [heq] at hub
        linarith
      · intro he
        have hab : a.hours < b.hours :=
          pairwise_hours_rel _ hp (Nat.lt_succ_self i) ha hb
        rw [he, heq] at hab
        linarith

/-- Witness for the C2 theorem: on the strictly increasing trajectory with
hours `[1, 2]`, a query equal to the final sample's time 2 yields the range
error. -/
theorem interpolate_range_error_witness :
    interpolate_coordinates 2 [⟨0, 1, 0, 0, 0⟩, ⟨0, 2, 3, 4, 5⟩] (0, 0, 0) = none :=
  interpolate_range_error.2.2 2 [⟨0, 1, 0, 0, 0⟩, ⟨0, 2, 3, 4, 5⟩] (0, 0, 0)
    ⟨0, 2, 3, 4, 5⟩ (by norm_num [List.chain'_cons]) rfl rfl

theorem parseRows_eq_none {α β : Type} (f : α → Option β) :
    ∀ l : List α, (∃ r ∈ l, f r = none) → parseRows f l = none := by
  intro l
  induction l with
  | nil =>
    rintro ⟨r, hr, _⟩
    exact absurd hr (List.not_mem_nil r)
  | cons x xs ih =>
    rintro ⟨r, hr, hfr⟩
    rw [parseRows]
    rcases List.mem_cons.mp hr with rfl | hmem
    · rw [hfr]
    · rw [ih ⟨r, hmem, hfr⟩]
      cases f x <;> rfl

theorem unwrapSamplesFrom_length (l : List RinexProcRow) :
    ∀ prev : RinexProcRow, (unwrapSamplesFrom prev l).length = l.length := by
  induction l with
  | nil => intro prev; rfl
  | cons x xs ih =>
    intro prev
    rw [unwrapSamplesFrom]
    split_ifs
    · simp
    · simp [ih x]

theorem rinex_unwrap_samples_length (l : List RinexProcRow) :
    (rinex_unwrap_samples l).length = l.length := by
  cases l with
  | nil => rfl
  | cons x xs => simp [rinex_unwrap_samples, unwrapSamplesFrom_length]

theorem parseRows_all_some {α β : Type} (f : α → Option β) :
    ∀ l : List α, (∀ r ∈ l, (f r).isSome) →
      ∃ vs, parseRows f l = some vs ∧ vs.length = l.length := by
  intro l
  induction l with
  | nil => intro _; exact ⟨[], rfl, rfl⟩
  | cons x xs ih =>
    intro h
    obtain ⟨v, hv⟩ := Option.isSome_iff_exists.mp (h x (List.mem_cons_self x xs))
    obtain ⟨vs, hvs, hlen⟩ := ih fun r hr => h r (List.mem_cons_of_mem x hr)
    refine ⟨v :: vs, ?_, by simp [hlen]⟩
    rw [parseRows, hv, hvs]

/-- C8 counterexample: a trajectory row with a perfectly parsed time field
`01:02:03` but a non-numeric east cell does not abort the parse — pandas
hands the cell over as a string, the code appends it, and a full one-row
trajectory is returned instead of the failure value `[]` that the claim
requires for an unparsable numeric column. -/
theorem rinex_parse_bad_coordinate_not_fatal :
    process_rinex_data
        [⟨[some 1, some 2, some 3], PdCell.text ['x'], PdCell.num 4, PdCell.num 5⟩] =
      [⟨3723, 3723 / 3600, PdCell.text ['x'], PdCell.num 4, PdCell.num 5⟩] ∧
      process_rinex_data
          [⟨[some 1, some 2, some 3], PdCell.text ['x'], PdCell.num 4, PdCell.num 5⟩] ≠
        [] := by
  have h1 : process_rinex_data
      [⟨[some 1, some 2, some 3], PdCell.text ['x'], PdCell.num 4, PdCell.num 5⟩] =
      [⟨3723, 3723 / 3600, PdCell.text ['x'], PdCell.num 4, PdCell.num 5⟩] := by
    norm_num [process_rinex_data, parseRows, parseRinexRow, rinex_unwrap_samples,
      unwrapSamplesFrom]
  refine ⟨h1, ?_⟩
  rw [h1]
  simp

/-- C8 (amended): a trajectory row whose time field fails to parse
(non-numeric part or wrong `H:M:S` arity) aborts the whole trajectory parse
with the failure value `[]` — no partial trajectory — and a malformed
capture-log row (missing or non-numeric seconds or offset token) aborts the
whole capture parse with the empty triple; but an unparsable east / north /
elevation cell never aborts: when every time field parses, the parser
returns exactly one processed row per input row, whatever the coordinate
cells hold. -/
theorem parse_failure_semantics :
    (∀ rows : List RinexRow, (∃ r ∈ rows, parseRinexRow r = none) →
        process_rinex_data rows = []) ∧
      (∀ rows : List RinexRow, (∀ r ∈ rows, (parseRinexRow r).isSome) →
        (process_rinex_data rows).length = rows.length) ∧
      ∀ rows : List CaptureRow, (∃ r ∈ rows, parseCaptureRow r = none) →
        process_timestamp_data rows = ([], [], []) := by
  refine ⟨?_, ?_, ?_⟩
  · intro rows h
    unfold process_rinex_data
    rw [parseRows_eq_none parseRinexRow rows h]
  · intro rows h
    obtain ⟨vs, hvs, hlen⟩ := parseRows_all_some parseRinexRow rows h
    unfold process_rinex_data
    rw [hvs, rinex_unwrap_samples_length]
    exact hlen
  · intro rows h
    unfold process_timestamp_data
    rw [parseRows_eq_none parseCaptureRow rows h]

/-- Witness for the amended C8 theorem: a one-part-time trajectory row and a
capture row with no numeric cells each abort their whole parse, while a
good-time trajectory row with a NaN east cell yields exactly one processed
row. -/
theorem parse_failure_semantics_witness :
    process_rinex_data
        [⟨[some 1], PdCell.num 0, PdCell.num 0, PdCell.num 0⟩] = [] ∧
      (process_rinex_data
        [⟨[some 1, some 2, some 3], PdCell.nan, PdCell.num 0, PdCell.num 0⟩]).length = 1 ∧
      process_timestamp_data [⟨7, none, none, none, none⟩] = ([], [], []) :=
  ⟨parse_failure_semantics.1 _
    ⟨⟨[some 1], PdCell.num 0, PdCell.num 0, PdCell.num 0⟩, by simp, rfl⟩,
   parse_failure_semantics.2.1 _
    (by
      intro r hr
      rw [List.mem_singleton] at hr
      subst hr
      rfl),
   parse_failure_semantics.2.2 _ ⟨⟨7, none, none, none, none⟩, by simp, rfl⟩⟩

theorem py_index_first (imgId : ℤ) :
    ∀ (ids : List ℤ) (k : ℕ), ids.get? k = some imgId →
      (∀ j, j < k → ids.get? j ≠ some imgId) → py_index imgId ids = some k := by
  intro ids
  induction ids with
  | nil =>
    intro k hk _
    simp at hk
  | cons y ys ih =>
    intro k hk hfirst
    cases k with
    | zero =>
      have hy : y = imgId := by simpa using hk
      rw [py_index, if_pos hy]
    | succ m =>
      have hy : ¬ y = imgId := by
        intro he
        exact hfirst 0 (Nat.succ_pos m) (by simp [he])
      have hrec := ih m (by simpa using hk)
        (fun j hj hc => hfirst (j + 1) (by omega) (by simpa using hc))
      rw [py_index, if_neg hy, hrec]
      rfl

/-- C9: when an image id occurs at index `k` of the capture log's id sequence
and at no smaller index, the correlator's lookup fetches the capture hours
and offset stored at exactly that index — so duplicates at later indices
never influence the image's result. -/
theorem lookup_capture_first_occurrence (ids : List ℤ) (times : List ℚ)
    (offs : List (ℚ × ℚ × ℚ)) (imgId : ℤ) (k : ℕ) (t : ℚ) (o : ℚ × ℚ × ℚ)
    (hk : ids.get? k = some imgId)
    (hfirst : ∀ j, j < k → ids.get? j ≠ some imgId)
    (ht : times.get? k = some t) (ho : offs.get? k = some o) :
    lookup_capture ids times offs imgId = some (t, o) := by
  unfold lookup_capture
  rw [py_index_first imgId ids k hk hfirst]
  simp only [List.get?_eq_getElem?] at ht ho
  simp [ht, ho]

/-- Witness for the C9 theorem: id 7 occurs at indices 0 and 2; the lookup
returns the entry at index 0. -/
theorem lookup_capture_first_occurrence_witness :
    lookup_capture [7, 5, 7] [1, 2, 3] [(1, 1, 1), (2, 2, 2), (3, 3, 3)] 7 =
      some (1, (1, 1, 1)) :=
  lookup_capture_first_occurrence [7, 5, 7] [1, 2, 3]
    [(1, 1, 1), (2, 2, 2), (3, 3, 3)] 7 0 1 (1, 1, 1) rfl
    (fun j hj => absurd hj (Nat.not_lt_zero j)) rfl rfl

end DroneData
